import Mathlib

/-!
Verification of the `morton-code` repository (`src/lib.rs`).

The crate manipulates 3-dimensional Morton codes packed into a platform
word (`usize`).  We shallowly embed the code over `Nat`: a `Morton3D`
value is its underlying word, a natural number below `USIZE = 2 ^ 64`
(64-bit configuration).  Rust's release-mode wrapping arithmetic on
`usize` is made explicit: `x + 1` becomes `(x + 1) % USIZE` and `x - 1`
becomes `(x + (USIZE - 1)) % USIZE`.  Bitwise complement `!x` is
`x ^^^ (USIZE - 1)`.

Alongside the bit-trick implementation we define reference functions
`compact3` / `dilate3` that read off, resp. spread out, every third bit
of a word; `extract v a` is the dilated coordinate of axis `a` encoded
in `v`.  The central lemmas relate the carry-confinement trick of
`increase_nth_dim` / `decrease_nth_dim` to `extract`.
-/

namespace Morton

/-- Source constant `NUM_BITS_USIZE = std::mem::size_of::<usize>() * 8`
(64-bit configuration: `size_of::<usize>() = 8`). -/
def NUM_BITS_USIZE : Nat := 8 * 8

/-- The number of `usize` values; words live below `USIZE = 2 ^ 64`. -/
def USIZE : Nat := 2 ^ NUM_BITS_USIZE

/-- Rust bitwise complement `!x` on a 64-bit `usize`. -/
def not64 (x : Nat) : Nat := x ^^^ (USIZE - 1)

/-- Source constant `MASK` (64-bit configuration): every third bit set,
21 groups `001`, top (flag) bit clear.  In binary this is
`0b0 001 001 … 001` (21 groups), i.e. bits `0, 3, …, 60`. -/
def MASK : Nat := 0x1249249249249249

/-- Source constant `MAX_DEPTH = NUM_BITS_USIZE / 3`. -/
def MAX_DEPTH : Nat := NUM_BITS_USIZE / 3

/-- Source `Morton3D::mask_n`: `MASK << (n % 3)`. -/
def mask_n (n : Nat) : Nat := MASK <<< (n % 3)

/-- Source `Morton3D::is_flag_set`: `(self.0 >> (NUM_BITS_USIZE - 1)) == 1`. -/
def is_flag_set (v : Nat) : Bool := (v >>> (NUM_BITS_USIZE - 1)) == 1

/-- Source `Morton3D::set_flag`: `self.0 |= 1 << (NUM_BITS_USIZE - 1)`. -/
def set_flag (v : Nat) : Nat := v ||| (1 <<< (NUM_BITS_USIZE - 1))

/-- Source `Morton3D::unset_flag`: `self.0 &= !(1 << (NUM_BITS_USIZE - 1))`. -/
def unset_flag (v : Nat) : Nat := v &&& not64 (1 <<< (NUM_BITS_USIZE - 1))

/-- Source `Morton3D::decrease_nth_dim`:
`((self.0 & mask_n(n)) - 1) & mask_n(n) | (self.0 & !mask_n(n))`,
with the wrapping `- 1` written as `+ (USIZE - 1)` modulo `USIZE`. -/
def decrease_nth_dim (v n : Nat) : Nat :=
  ((((v &&& mask_n n) + (USIZE - 1)) % USIZE) &&& mask_n n) ||| (v &&& not64 (mask_n n))

/-- Source `Morton3D::increase_nth_dim`:
`((self.0 | !mask_n(n)) + 1) & mask_n(n) | (self.0 & !mask_n(n))`,
with the wrapping `+ 1` taken modulo `USIZE`. -/
def increase_nth_dim (v n : Nat) : Nat :=
  ((((v ||| not64 (mask_n n)) + 1) % USIZE) &&& mask_n n) ||| (v &&& not64 (mask_n n))

/-- Source `Morton3D::decrease_x`. -/
def decrease_x (v : Nat) : Nat := decrease_nth_dim v 0

/-- Source `Morton3D::decrease_y`. -/
def decrease_y (v : Nat) : Nat := decrease_nth_dim v 1

/-- Source `Morton3D::decrease_z`. -/
def decrease_z (v : Nat) : Nat := decrease_nth_dim v 2

/-- Source `Morton3D::increase_x`. -/
def increase_x (v : Nat) : Nat := increase_nth_dim v 0

/-- Source `Morton3D::increase_y`. -/
def increase_y (v : Nat) : Nat := increase_nth_dim v 1

/-- Source `Morton3D::increase_z`. -/
def increase_z (v : Nat) : Nat := increase_nth_dim v 2

/-- The loop body of the source test `test_max`:
`morton.increase_x()` then `.increase_y()` then `.increase_z()`. -/
def increase_xyz (v : Nat) : Nat := increase_z (increase_y (increase_x v))

/-- Source constant `MASK` of the 32-bit configuration: ten groups
`001`, the two top bits (flag bit and the unused spare bit) clear.
In binary `0b00 001 001 … 001` (10 groups), i.e. bits `0, 3, …, 27`. -/
def MASK32 : Nat := 0x9249249

/-- `NUM_BITS_USIZE` of the 32-bit configuration. -/
def NUM_BITS_USIZE32 : Nat := 4 * 8

/-- `MAX_DEPTH` of the 32-bit configuration. -/
def MAX_DEPTH32 : Nat := NUM_BITS_USIZE32 / 3

/-- `Morton3D::mask_n` of the 32-bit configuration. -/
def mask32_n (n : Nat) : Nat := MASK32 <<< (n % 3)

/-! ### Reference functions (specification side)

`compact3 k v` reads bits `0, 3, 6, …, 3*(k-1)` of `v` into a `k`-bit
integer; `dilate3 k x` spreads the low `k` bits of `x` to positions
`0, 3, …, 3*(k-1)`.  `M3 k` is the `k`-level stride-3 mask, so that
`M3 MAX_DEPTH = MASK`. -/

/-- The `k`-level mask with bits `0, 3, …, 3*(k-1)` set. -/
def M3 : Nat → Nat
  | 0 => 0
  | k + 1 => 8 * M3 k + 1

/-- Compaction: read every third bit, starting at bit 0. -/
def compact3 : Nat → Nat → Nat
  | 0, _ => 0
  | k + 1, v => v % 2 + 2 * compact3 k (v / 8)

/-- Dilation: spread the low `k` bits to every third position. -/
def dilate3 : Nat → Nat → Nat
  | 0, _ => 0
  | k + 1, x => x % 2 + 8 * dilate3 k (x / 2)

/-- The dilated coordinate of axis `a` stored in word `v`: the integer
read off the bits selected by `mask_n a`. -/
def extract (v a : Nat) : Nat := compact3 MAX_DEPTH (v / 2 ^ a)

/-- Canonical result shape of the axis operations: replace the axis-`a`
bits of `v` by the dilation of `extract v a + d` (mod the axis
capacity), keep everything else.  `increase_nth_dim` realises `d = 1`,
`decrease_nth_dim` realises `d = 2 ^ MAX_DEPTH - 1`. -/
def axisUpd (v a d : Nat) : Nat :=
  dilate3 MAX_DEPTH ((extract v a + d) % 2 ^ MAX_DEPTH) * 2 ^ a + (v &&& not64 (mask_n a))

/-! ### Generic bit-manipulation lemmas -/

theorem testBit_chunk_low {s x y i : Nat} (hx : x < 2 ^ s) (hi : i < s) :
    (x + 2 ^ s * y).testBit i = x.testBit i := by
  rw [Nat.add_comm, Nat.testBit_mul_pow_two_add y hx i, if_pos hi]

theorem testBit_chunk_high {s x y i : Nat} (hx : x < 2 ^ s) (hi : s ≤ i) :
    (x + 2 ^ s * y).testBit i = y.testBit (i - s) := by
  rw [Nat.add_comm, Nat.testBit_mul_pow_two_add y hx i, if_neg (by omega)]

theorem and_chunk {s x y : Nat} (x' y' : Nat) (hx : x < 2 ^ s) (hy : y < 2 ^ s) :
    (x + 2 ^ s * x') &&& (y + 2 ^ s * y') = (x &&& y) + 2 ^ s * (x' &&& y') := by
  apply Nat.eq_of_testBit_eq
  intro i
  rcases Nat.lt_or_ge i s with hi | hi
  · rw [Nat.testBit_and, testBit_chunk_low hx hi, testBit_chunk_low hy hi,
      testBit_chunk_low (Nat.and_lt_two_pow x hy) hi, Nat.testBit_and]
  · rw [Nat.testBit_and, testBit_chunk_high hx hi, testBit_chunk_high hy hi,
      testBit_chunk_high (Nat.and_lt_two_pow x hy) hi, Nat.testBit_and]

theorem or_chunk {s x y : Nat} (x' y' : Nat) (hx : x < 2 ^ s) (hy : y < 2 ^ s) :
    (x + 2 ^ s * x') ||| (y + 2 ^ s * y') = (x ||| y) + 2 ^ s * (x' ||| y') := by
  apply Nat.eq_of_testBit_eq
  intro i
  rcases Nat.lt_or_ge i s with hi | hi
  · rw [Nat.testBit_or, testBit_chunk_low hx hi, testBit_chunk_low hy hi,
      testBit_chunk_low (Nat.or_lt_two_pow hx hy) hi, Nat.testBit_or]
  · rw [Nat.testBit_or, testBit_chunk_high hx hi, testBit_chunk_high hy hi,
      testBit_chunk_high (Nat.or_lt_two_pow hx hy) hi, Nat.testBit_or]

theorem xor_chunk {s x y : Nat} (x' y' : Nat) (hx : x < 2 ^ s) (hy : y < 2 ^ s) :
    (x + 2 ^ s * x') ^^^ (y + 2 ^ s * y') = (x ^^^ y) + 2 ^ s * (x' ^^^ y') := by
  apply Nat.eq_of_testBit_eq
  intro i
  rcases Nat.lt_or_ge i s with hi | hi
  · rw [Nat.testBit_xor, testBit_chunk_low hx hi, testBit_chunk_low hy hi,
      testBit_chunk_low (Nat.xor_lt_two_pow hx hy) hi, Nat.testBit_xor]
  · rw [Nat.testBit_xor, testBit_chunk_high hx hi, testBit_chunk_high hy hi,
      testBit_chunk_high (Nat.xor_lt_two_pow hx hy) hi, Nat.testBit_xor]

theorem and_chunk8 {x y : Nat} (x' y' : Nat) (hx : x < 8) (hy : y < 8) :
    (x + 8 * x') &&& (y + 8 * y') = (x &&& y) + 8 * (x' &&& y') := by
  have e : (8 : Nat) = 2 ^ 3 := by norm_num
  rw [e] at hx hy ⊢
  exact and_chunk x' y' hx hy

theorem or_chunk8 {x y : Nat} (x' y' : Nat) (hx : x < 8) (hy : y < 8) :
    (x + 8 * x') ||| (y + 8 * y') = (x ||| y) + 8 * (x' ||| y') := by
  have e : (8 : Nat) = 2 ^ 3 := by norm_num
  rw [e] at hx hy ⊢
  exact or_chunk x' y' hx hy

theorem xor_chunk8 {x y : Nat} (x' y' : Nat) (hx : x < 8) (hy : y < 8) :
    (x + 8 * x') ^^^ (y + 8 * y') = (x ^^^ y) + 8 * (x' ^^^ y') := by
  have e : (8 : Nat) = 2 ^ 3 := by norm_num
  rw [e] at hx hy ⊢
  exact xor_chunk x' y' hx hy

theorem and_chunk2 {x y : Nat} (x' y' : Nat) (hx : x < 2) (hy : y < 2) :
    (x + 2 * x') &&& (y + 2 * y') = (x &&& y) + 2 * (x' &&& y') := by
  have e : (2 : Nat) = 2 ^ 1 := by norm_num
  rw [e] at hx hy ⊢
  exact and_chunk x' y' hx hy

theorem or_chunk2 {x y : Nat} (x' y' : Nat) (hx : x < 2) (hy : y < 2) :
    (x + 2 * x') ||| (y + 2 * y') = (x ||| y) + 2 * (x' ||| y') := by
  have e : (2 : Nat) = 2 ^ 1 := by norm_num
  rw [e] at hx hy ⊢
  exact or_chunk x' y' hx hy

theorem or_eq_add_aux : ∀ n x y : Nat, x < 2 ^ n → x &&& y = 0 → x ||| y = x + y := by
  intro n
  induction n with
  | zero =>
    intro x y hx h
    rw [pow_zero] at hx
    have hx0 : x = 0 := by omega
    simp [hx0]
  | succ n ih =>
    intro x y hx h
    have hd : x % 2 + 2 * (x / 2) = x := Nat.mod_add_div x 2
    have hdy : y % 2 + 2 * (y / 2) = y := Nat.mod_add_div y 2
    have hx2 : x / 2 < 2 ^ n := by
      have : (2 : Nat) ^ (n + 1) = 2 * 2 ^ n := by rw [pow_succ]; ring
      omega
    have hand : (x % 2 &&& y % 2) + 2 * (x / 2 &&& y / 2) = 0 := by
      have := and_chunk2 (x / 2) (y / 2) (Nat.mod_lt x (by norm_num))
        (Nat.mod_lt y (by norm_num))
      rw [hd, hdy] at this
      omega
    have hor : x ||| y = (x % 2 ||| y % 2) + 2 * (x / 2 ||| y / 2) := by
      have := or_chunk2 (x / 2) (y / 2) (Nat.mod_lt x (by norm_num) : x % 2 < 2)
        (Nat.mod_lt y (by norm_num) : y % 2 < 2)
      rw [hd, hdy] at this
      exact this
    have hlow : x % 2 ||| y % 2 = x % 2 + y % 2 := by
      have hsmall : ∀ a < 2, ∀ b < 2, a &&& b = 0 → a ||| b = a + b := by decide
      exact hsmall _ (Nat.mod_lt x (by norm_num)) _ (Nat.mod_lt y (by norm_num)) (by omega)
    have hhigh : x / 2 ||| y / 2 = x / 2 + y / 2 := ih _ _ hx2 (by omega)
    rw [hor, hlow, hhigh]
    omega

theorem or_eq_add {x y : Nat} (h : x &&& y = 0) : x ||| y = x + y :=
  or_eq_add_aux x x y (Nat.lt_two_pow x) h

theorem add_and_distrib {x y : Nat} (z : Nat) (h : x &&& y = 0) :
    (x + y) &&& z = (x &&& z) + (y &&& z) := by
  have h1 : (x &&& z) &&& (y &&& z) = 0 := by
    apply Nat.eq_of_testBit_eq
    intro i
    have hxy : (x.testBit i && y.testBit i) = false := by
      rw [← Nat.testBit_and, h]; exact Nat.zero_testBit i
    simp only [Nat.testBit_and, Nat.zero_testBit]
    cases hx : x.testBit i <;> cases hy : y.testBit i <;> simp_all
  rw [← or_eq_add h, Nat.and_distrib_right, or_eq_add h1]

theorem and_eq_zero_of_subset {x m m' : Nat} (hx : x &&& m = x) (hmm : m &&& m' = 0) :
    x &&& m' = 0 := by
  rw [← hx, Nat.and_assoc, hmm, Nat.and_zero]

theorem and_eq_self_of_subset {x m m' : Nat} (hx : x &&& m = x) (hmm : m &&& m' = m) :
    x &&& m' = x := by
  calc x &&& m' = (x &&& m) &&& m' := by rw [hx]
    _ = x &&& (m &&& m') := Nat.and_assoc x m m'
    _ = x &&& m := by rw [hmm]
    _ = x := hx

theorem and_eq_zero_of_subsets {x y m m' : Nat} (hx : x &&& m = x) (hy : y &&& m' = y)
    (hmm : m &&& m' = 0) : x &&& y = 0 := by
  have hmy : m &&& y = 0 := by
    rw [← hy, Nat.and_comm y m', ← Nat.and_assoc, hmm, Nat.zero_and]
  rw [← hx, Nat.and_assoc, hmy, Nat.and_zero]

theorem not_and_self_eq_zero {n m : Nat} (hm : m < 2 ^ n) : ((2 ^ n - 1) ^^^ m) &&& m = 0 := by
  apply Nat.eq_of_testBit_eq
  intro i
  simp only [Nat.testBit_and, Nat.testBit_xor, Nat.testBit_two_pow_sub_one, Nat.zero_testBit]
  rcases Nat.lt_or_ge i n with hi | hi
  · cases tb : m.testBit i <;> simp [hi, tb]
  · have hmf : m.testBit i = false :=
      Nat.testBit_lt_two_pow (lt_of_lt_of_le hm (Nat.pow_le_pow_right (by norm_num) hi))
    simp [hmf]

theorem and_not_eq_self {n y m : Nat} (hy : y < 2 ^ n) (h : y &&& m = 0) :
    y &&& ((2 ^ n - 1) ^^^ m) = y := by
  apply Nat.eq_of_testBit_eq
  intro i
  have h0 : (y.testBit i && m.testBit i) = false := by
    rw [← Nat.testBit_and, h]; exact Nat.zero_testBit i
  simp only [Nat.testBit_and, Nat.testBit_xor, Nat.testBit_two_pow_sub_one]
  rcases Nat.lt_or_ge i n with hi | hi
  · cases hyb : y.testBit i <;> cases hmb : m.testBit i <;> simp_all [hi]
  · have hyf : y.testBit i = false :=
      Nat.testBit_lt_two_pow (lt_of_lt_of_le hy (Nat.pow_le_pow_right (by norm_num) hi))
    simp [hyf]

theorem and_split {n v m : Nat} (hv : v < 2 ^ n) :
    (v &&& m) + (v &&& ((2 ^ n - 1) ^^^ m)) = v := by
  have hdisj : (v &&& m) &&& (v &&& ((2 ^ n - 1) ^^^ m)) = 0 := by
    apply Nat.eq_of_testBit_eq
    intro i
    simp only [Nat.testBit_and, Nat.testBit_xor, Nat.testBit_two_pow_sub_one, Nat.zero_testBit]
    rcases Nat.lt_or_ge i n with hi | hi
    · cases hvb : v.testBit i <;> cases hmb : m.testBit i <;> simp [hvb, hmb, hi]
    · have hvf : v.testBit i = false :=
        Nat.testBit_lt_two_pow (lt_of_lt_of_le hv (Nat.pow_le_pow_right (by norm_num) hi))
      simp [hvf]
  have hor : (v &&& m) ||| (v &&& ((2 ^ n - 1) ^^^ m)) = v := by
    apply Nat.eq_of_testBit_eq
    intro i
    simp only [Nat.testBit_or, Nat.testBit_and, Nat.testBit_xor, Nat.testBit_two_pow_sub_one]
    rcases Nat.lt_or_ge i n with hi | hi
    · cases hvb : v.testBit i <;> cases hmb : m.testBit i <;> simp [hvb, hmb, hi]
    · have hvf : v.testBit i = false :=
        Nat.testBit_lt_two_pow (lt_of_lt_of_le hv (Nat.pow_le_pow_right (by norm_num) hi))
      simp [hvf]
  rw [← or_eq_add hdisj]
  exact hor

theorem add_mul_mod_mul {B c z N : Nat} (hc : c < B) (hN : 0 < N) :
    (c + B * z) % (B * N) = c + B * (z % N) := by
  have h1 : z = N * (z / N) + z % N := (Nat.div_add_mod z N).symm
  have h2 : c + B * z = c + B * (z % N) + B * N * (z / N) := by
    conv_lhs => rw [h1]
    ring
  have hlt : c + B * (z % N) < B * N := by
    have hmod : z % N < N := Nat.mod_lt z hN
    have hle : 1 + z % N ≤ N := by omega
    calc c + B * (z % N) < B + B * (z % N) := Nat.add_lt_add_right hc _
      _ = B * (1 + z % N) := by ring
      _ ≤ B * N := Nat.mul_le_mul_left B hle
  rw [h2, Nat.add_mul_mod_self_left, Nat.mod_eq_of_lt hlt]

/-! ### Structure of `M3`, `compact3`, `dilate3` -/

theorem pow_three_succ (k r : Nat) : (2 : Nat) ^ (3 * (k + 1) + r) = 8 * 2 ^ (3 * k + r) := by
  have h : 3 * (k + 1) + r = (3 * k + r) + 3 := by ring
  rw [h, pow_add]
  ring

theorem two_pow_lt_eight {a : Nat} (ha : a < 3) : (2 : Nat) ^ a < 8 := by
  interval_cases a <;> norm_num

theorem M3_succ_mul (k a : Nat) : M3 (k + 1) * 2 ^ a = 2 ^ a + 8 * (M3 k * 2 ^ a) := by
  show (8 * M3 k + 1) * 2 ^ a = _
  ring

theorem M3_mul_lt {a : Nat} (k : Nat) (ha : a < 3) : M3 k * 2 ^ a < 2 ^ (3 * k) := by
  induction k with
  | zero => simp [M3]
  | succ k ih =>
    have hp : (2 : Nat) ^ (3 * (k + 1)) = 8 * 2 ^ (3 * k) := by
      have h : 3 * (k + 1) = 3 * k + 3 := by ring
      rw [h, pow_add]; ring
    rw [M3_succ_mul, hp]
    have h8 := two_pow_lt_eight ha
    omega

theorem compact3_lt (k : Nat) : ∀ v, compact3 k v < 2 ^ k := by
  induction k with
  | zero => intro v; simp [compact3]
  | succ k ih =>
    intro v
    have h := ih (v / 8)
    have hp : (2 : Nat) ^ (k + 1) = 2 * 2 ^ k := by rw [pow_succ]; ring
    show v % 2 + 2 * compact3 k (v / 8) < 2 ^ (k + 1)
    omega

theorem dilate3_le_M3 (k : Nat) : ∀ x, dilate3 k x ≤ M3 k := by
  induction k with
  | zero => intro x; simp [dilate3, M3]
  | succ k ih =>
    intro x
    have h := ih (x / 2)
    show x % 2 + 8 * dilate3 k (x / 2) ≤ 8 * M3 k + 1
    omega

theorem dilate3_mul_lt {a : Nat} (k x : Nat) (ha : a < 3) : dilate3 k x * 2 ^ a < 2 ^ (3 * k) :=
  lt_of_le_of_lt (Nat.mul_le_mul_right _ (dilate3_le_M3 k x)) (M3_mul_lt k ha)

theorem dilate3_mod (k : Nat) : ∀ x, dilate3 k (x % 2 ^ k) = dilate3 k x := by
  induction k with
  | zero => intro x; simp [dilate3]
  | succ k ih =>
    intro x
    have hp : (2 : Nat) ^ (k + 1) = 2 * 2 ^ k := by rw [pow_succ]; ring
    show x % 2 ^ (k + 1) % 2 + 8 * dilate3 k (x % 2 ^ (k + 1) / 2) = x % 2 + 8 * dilate3 k (x / 2)
    have h1 : x % 2 ^ (k + 1) % 2 = x % 2 :=
      Nat.mod_mod_of_dvd x ⟨2 ^ k, by rw [hp]⟩
    have h2 : x % 2 ^ (k + 1) / 2 = x / 2 % 2 ^ k := by
      rw [hp]; exact Nat.mod_mul_right_div_self x 2 (2 ^ k)
    rw [h1, h2, ih]

theorem compact3_dilate3 (k : Nat) : ∀ x, compact3 k (dilate3 k x) = x % 2 ^ k := by
  induction k with
  | zero => intro x; simp [compact3, Nat.mod_one]
  | succ k ih =>
    intro x
    show dilate3 (k + 1) x % 2 + 2 * compact3 k (dilate3 (k + 1) x / 8) = x % 2 ^ (k + 1)
    have hd : dilate3 (k + 1) x = x % 2 + 8 * dilate3 k (x / 2) := rfl
    have h1 : dilate3 (k + 1) x % 2 = x % 2 := by omega
    have h2 : dilate3 (k + 1) x / 8 = dilate3 k (x / 2) := by omega
    rw [h1, h2, ih]
    have hp : (2 : Nat) ^ (k + 1) = 2 * 2 ^ k := by rw [pow_succ]; ring
    rw [hp, Nat.mod_mul]

theorem div_pow_mod_two {a : Nat} (v : Nat) (ha : a < 3) : v / 2 ^ a % 2 = v % 8 / 2 ^ a % 2 := by
  interval_cases a <;> norm_num <;> omega

theorem div_pow_div_eight {a : Nat} (v : Nat) : v / 2 ^ a / 8 = v / 8 / 2 ^ a := by
  rw [Nat.div_div_eq_div_mul, Nat.div_div_eq_div_mul, Nat.mul_comm]

theorem and_M3 {a : Nat} (k : Nat) (ha : a < 3) :
    ∀ v, v &&& (M3 k * 2 ^ a) = dilate3 k (compact3 k (v / 2 ^ a)) * 2 ^ a := by
  induction k with
  | zero => intro v; simp [M3, dilate3, compact3]
  | succ k ih =>
    intro v
    have hd8 : v % 8 < 8 := Nat.mod_lt v (by norm_num)
    have ha8 : (2 : Nat) ^ a < 8 := two_pow_lt_eight ha
    have hsplit : v = v % 8 + 8 * (v / 8) := (Nat.mod_add_div v 8).symm
    have hbit : v % 8 &&& 2 ^ a = v % 8 / 2 ^ a % 2 * 2 ^ a := by
      have hsmall : ∀ d < 8, ∀ b < 3, d &&& 2 ^ b = d / 2 ^ b % 2 * 2 ^ b := by decide
      exact hsmall _ hd8 _ ha
    have hlhs : v &&& (M3 (k + 1) * 2 ^ a)
        = v % 8 / 2 ^ a % 2 * 2 ^ a + 8 * (dilate3 k (compact3 k (v / 8 / 2 ^ a)) * 2 ^ a) := by
      conv_lhs => rw [hsplit, M3_succ_mul]
      rw [and_chunk8 (v / 8) (M3 k * 2 ^ a) hd8 ha8, hbit, ih (v / 8)]
    set b := v % 8 / 2 ^ a % 2 with hb
    set c := compact3 k (v / 8 / 2 ^ a) with hc
    have hcomp : compact3 (k + 1) (v / 2 ^ a) = b + 2 * c := by
      show v / 2 ^ a % 2 + 2 * compact3 k (v / 2 ^ a / 8) = b + 2 * c
      rw [div_pow_mod_two v ha, div_pow_div_eight v]
    have hdil : dilate3 (k + 1) (b + 2 * c) = b + 8 * dilate3 k c := by
      have hblt : b < 2 := by omega
      show (b + 2 * c) % 2 + 8 * dilate3 k ((b + 2 * c) / 2) = b + 8 * dilate3 k c
      have h1 : (b + 2 * c) % 2 = b := by omega
      have h2 : (b + 2 * c) / 2 = c := by omega
      rw [h1, h2]
    rw [hlhs, hcomp, hdil]
    ring

/-- Unfolding equation of `compact3` at a successor level. -/
theorem compact3_succ (k v : Nat) : compact3 (k + 1) v = v % 2 + 2 * compact3 k (v / 8) := rfl

/-- Unfolding equation of `dilate3` at a successor level. -/
theorem dilate3_succ (k x : Nat) : dilate3 (k + 1) x = x % 2 + 8 * dilate3 k (x / 2) := rfl

/-! ### Small facts about the lowest 3-bit chunk, settled by enumeration -/

theorem or_not_low0 : ∀ d < 8, ∀ b < 3, d / 2 ^ b % 2 = 0 →
    d ||| (7 ^^^ 2 ^ b) = 7 ^^^ 2 ^ b := by decide

theorem or_not_low1 : ∀ d < 8, ∀ b < 3, d / 2 ^ b % 2 = 1 → d ||| (7 ^^^ 2 ^ b) = 7 := by decide

theorem and_low1 : ∀ d < 8, ∀ b < 3, d / 2 ^ b % 2 = 1 → d &&& 2 ^ b = 2 ^ b := by decide

theorem and_low0 : ∀ d < 8, ∀ b < 3, d / 2 ^ b % 2 = 0 → d &&& 2 ^ b = 0 := by decide

theorem inc_low_step : ∀ b < 3, ((7 ^^^ 2 ^ b) + 1 : Nat) = 8 - 2 ^ b ∧
    ((8 - 2 ^ b) &&& 2 ^ b : Nat) = 2 ^ b := by decide

theorem dec_low_borrow : ∀ b < 3, ((2 ^ b - 1 : Nat) &&& 2 ^ b) = 0 ∧
    ((7 : Nat) &&& 2 ^ b) = 2 ^ b := by decide

/-! ### The carry-confinement trick, at any width `3 * k + r`

`core_inc` states that `((v | !m) + 1) & m` is the dilation of the
incremented (mod `2 ^ k`) compacted axis value; `core_dec` states that
`((v & m) - 1) & m` is the dilation of the decremented one.  `!` is
complement at width `3 * k + r` and the arithmetic wraps at that width. -/

theorem core_inc {a : Nat} (r : Nat) (ha : a < 3) :
    ∀ k v, v < 2 ^ (3 * k + r) →
      ((v ||| ((2 ^ (3 * k + r) - 1) ^^^ (M3 k * 2 ^ a))) + 1) % 2 ^ (3 * k + r)
          &&& (M3 k * 2 ^ a)
        = dilate3 k ((compact3 k (v / 2 ^ a) + 1) % 2 ^ k) * 2 ^ a := by
  intro k
  induction k with
  | zero => intro v hv; simp [M3, dilate3]
  | succ k ih =>
    intro v hv
    have hW : (0 : Nat) < 2 ^ (3 * k + r) := Nat.two_pow_pos _
    have h8W : (2 : Nat) ^ (3 * (k + 1) + r) = 8 * 2 ^ (3 * k + r) := pow_three_succ k r
    have hmW : M3 k * 2 ^ a < 2 ^ (3 * k + r) :=
      lt_of_lt_of_le (M3_mul_lt k ha) (Nat.pow_le_pow_right (by norm_num) (by omega))
    have hd8 : v % 8 < 8 := Nat.mod_lt v (by norm_num)
    have ha8 : (2 : Nat) ^ a < 8 := two_pow_lt_eight ha
    have hpa : (0 : Nat) < 2 ^ a := Nat.two_pow_pos a
    have h7a : (7 ^^^ 2 ^ a : Nat) < 8 := by interval_cases a <;> decide
    have hnot : (2 ^ (3 * (k + 1) + r) - 1) ^^^ (M3 (k + 1) * 2 ^ a)
        = (7 ^^^ 2 ^ a) + 8 * ((2 ^ (3 * k + r) - 1) ^^^ (M3 k * 2 ^ a)) := by
      have h1 : (2 : Nat) ^ (3 * (k + 1) + r) - 1 = 7 + 8 * (2 ^ (3 * k + r) - 1) := by omega
      rw [h1, M3_succ_mul]
      exact xor_chunk8 _ _ (by norm_num) ha8
    have hsplit : v = v % 8 + 8 * (v / 8) := (Nat.mod_add_div v 8).symm
    have hv8 : v / 8 < 2 ^ (3 * k + r) := by omega
    have hor : v ||| ((2 ^ (3 * (k + 1) + r) - 1) ^^^ (M3 (k + 1) * 2 ^ a))
        = (v % 8 ||| (7 ^^^ 2 ^ a))
          + 8 * (v / 8 ||| ((2 ^ (3 * k + r) - 1) ^^^ (M3 k * 2 ^ a))) := by
      conv_lhs => rw [hsplit, hnot]
      exact or_chunk8 _ _ hd8 h7a
    have hu : v / 8 ||| ((2 ^ (3 * k + r) - 1) ^^^ (M3 k * 2 ^ a)) < 2 ^ (3 * k + r) :=
      Nat.or_lt_two_pow hv8 (Nat.xor_lt_two_pow (by omega) hmW)
    have hcomp : compact3 (k + 1) (v / 2 ^ a)
        = v % 8 / 2 ^ a % 2 + 2 * compact3 k (v / 8 / 2 ^ a) := by
      rw [compact3_succ, div_pow_mod_two v ha, div_pow_div_eight v]
    have hclt : compact3 k (v / 8 / 2 ^ a) < 2 ^ k := compact3_lt k _
    have hp2 : (2 : Nat) ^ (k + 1) = 2 * 2 ^ k := by rw [pow_succ]; ring
    rw [hor, h8W, M3_succ_mul, hcomp]
    rcases (by omega : v % 8 / 2 ^ a % 2 = 0 ∨ v % 8 / 2 ^ a % 2 = 1) with hb | hb
    · -- the lowest axis bit is clear: the carry stops inside the lowest chunk
      obtain ⟨hs1, hs2⟩ := inc_low_step a ha
      have hsum : (v % 8 ||| (7 ^^^ 2 ^ a))
            + 8 * (v / 8 ||| ((2 ^ (3 * k + r) - 1) ^^^ (M3 k * 2 ^ a))) + 1
          = (8 - 2 ^ a)
            + 8 * (v / 8 ||| ((2 ^ (3 * k + r) - 1) ^^^ (M3 k * 2 ^ a))) := by
        rw [or_not_low0 _ hd8 _ ha hb]
        omega
      rw [hsum, Nat.mod_eq_of_lt (by omega),
        and_chunk8 _ _ (by omega) ha8, hs2, Nat.and_distrib_right,
        not_and_self_eq_zero hmW, Nat.or_zero, and_M3 k ha (v / 8), hb]
      have hm1 : (0 + 2 * compact3 k (v / 8 / 2 ^ a) + 1) % 2 ^ (k + 1)
          = 0 + 2 * compact3 k (v / 8 / 2 ^ a) + 1 := Nat.mod_eq_of_lt (by omega)
      rw [hm1, dilate3_succ]
      have e1 : (0 + 2 * compact3 k (v / 8 / 2 ^ a) + 1) % 2 = 1 := by omega
      have e2 : (0 + 2 * compact3 k (v / 8 / 2 ^ a) + 1) / 2 = compact3 k (v / 8 / 2 ^ a) := by
        omega
      rw [e1, e2]
      ring
    · -- the lowest axis bit is set: the carry leaves the lowest chunk
      have hsum : (v % 8 ||| (7 ^^^ 2 ^ a))
            + 8 * (v / 8 ||| ((2 ^ (3 * k + r) - 1) ^^^ (M3 k * 2 ^ a))) + 1
          = 8 * ((v / 8 ||| ((2 ^ (3 * k + r) - 1) ^^^ (M3 k * 2 ^ a))) + 1) := by
        rw [or_not_low1 _ hd8 _ ha hb]
        ring
      have h0 : (8 : Nat) * (((v / 8 ||| ((2 ^ (3 * k + r) - 1) ^^^ (M3 k * 2 ^ a))) + 1)
            % 2 ^ (3 * k + r))
          = 0 + 8 * (((v / 8 ||| ((2 ^ (3 * k + r) - 1) ^^^ (M3 k * 2 ^ a))) + 1)
            % 2 ^ (3 * k + r)) := by ring
      rw [hsum, Nat.mul_mod_mul_left, h0, and_chunk8 _ _ (by norm_num) ha8, Nat.zero_and,
        ih (v / 8) hv8, hb]
      have hm2 : (1 + 2 * compact3 k (v / 8 / 2 ^ a) + 1) % 2 ^ (k + 1)
          = 2 * ((compact3 k (v / 8 / 2 ^ a) + 1) % 2 ^ k) := by
        have h : 1 + 2 * compact3 k (v / 8 / 2 ^ a) + 1
            = 2 * (compact3 k (v / 8 / 2 ^ a) + 1) := by ring
        rw [h, hp2, Nat.mul_mod_mul_left]
      rw [hm2, dilate3_succ]
      have e1 : 2 * ((compact3 k (v / 8 / 2 ^ a) + 1) % 2 ^ k) % 2 = 0 := by omega
      have e2 : 2 * ((compact3 k (v / 8 / 2 ^ a) + 1) % 2 ^ k) / 2
          = (compact3 k (v / 8 / 2 ^ a) + 1) % 2 ^ k := by omega
      rw [e1, e2]
      ring

theorem core_dec {a : Nat} (r : Nat) (ha : a < 3) :
    ∀ k v, v < 2 ^ (3 * k + r) →
      ((v &&& (M3 k * 2 ^ a)) + (2 ^ (3 * k + r) - 1)) % 2 ^ (3 * k + r)
          &&& (M3 k * 2 ^ a)
        = dilate3 k ((compact3 k (v / 2 ^ a) + (2 ^ k - 1)) % 2 ^ k) * 2 ^ a := by
  intro k
  induction k with
  | zero => intro v hv; simp [M3, dilate3]
  | succ k ih =>
    intro v hv
    have hW : (0 : Nat) < 2 ^ (3 * k + r) := Nat.two_pow_pos _
    have h8W : (2 : Nat) ^ (3 * (k + 1) + r) = 8 * 2 ^ (3 * k + r) := pow_three_succ k r
    have hmW : M3 k * 2 ^ a < 2 ^ (3 * k + r) :=
      lt_of_lt_of_le (M3_mul_lt k ha) (Nat.pow_le_pow_right (by norm_num) (by omega))
    have hd8 : v % 8 < 8 := Nat.mod_lt v (by norm_num)
    have ha8 : (2 : Nat) ^ a < 8 := two_pow_lt_eight ha
    have hpa : (0 : Nat) < 2 ^ a := Nat.two_pow_pos a
    have hsplit : v = v % 8 + 8 * (v / 8) := (Nat.mod_add_div v 8).symm
    have hv8 : v / 8 < 2 ^ (3 * k + r) := by omega
    have hxlt : v / 8 &&& (M3 k * 2 ^ a) < 2 ^ (3 * k + r) :=
      lt_of_le_of_lt Nat.and_le_right hmW
    have hand : v &&& (M3 (k + 1) * 2 ^ a)
        = (v % 8 &&& 2 ^ a) + 8 * (v / 8 &&& (M3 k * 2 ^ a)) := by
      conv_lhs => rw [hsplit, M3_succ_mul]
      exact and_chunk8 _ _ hd8 ha8
    have hcomp : compact3 (k + 1) (v / 2 ^ a)
        = v % 8 / 2 ^ a % 2 + 2 * compact3 k (v / 8 / 2 ^ a) := by
      rw [compact3_succ, div_pow_mod_two v ha, div_pow_div_eight v]
    have hclt : compact3 k (v / 8 / 2 ^ a) < 2 ^ k := compact3_lt k _
    have hp2 : (2 : Nat) ^ (k + 1) = 2 * 2 ^ k := by rw [pow_succ]; ring
    have hk1 : (0 : Nat) < 2 ^ k := Nat.two_pow_pos k
    obtain ⟨hbor, h7and⟩ := dec_low_borrow a ha
    rw [hand, h8W, M3_succ_mul, hcomp]
    rcases (by omega : v % 8 / 2 ^ a % 2 = 0 ∨ v % 8 / 2 ^ a % 2 = 1) with hb | hb
    · -- the lowest axis bit is clear: the borrow leaves the lowest chunk
      have hsum : (v % 8 &&& 2 ^ a) + 8 * (v / 8 &&& (M3 k * 2 ^ a))
            + (8 * 2 ^ (3 * k + r) - 1)
          = 7 + 8 * ((v / 8 &&& (M3 k * 2 ^ a)) + (2 ^ (3 * k + r) - 1)) := by
        rw [and_low0 _ hd8 _ ha hb]
        omega
      rw [hsum, add_mul_mod_mul (by norm_num) hW, and_chunk8 _ _ (by norm_num) ha8, h7and,
        ih (v / 8) hv8, hb]
      have hm3 : (0 + 2 * compact3 k (v / 8 / 2 ^ a) + (2 ^ (k + 1) - 1)) % 2 ^ (k + 1)
          = 1 + 2 * ((compact3 k (v / 8 / 2 ^ a) + (2 ^ k - 1)) % 2 ^ k) := by
        have h : 0 + 2 * compact3 k (v / 8 / 2 ^ a) + (2 ^ (k + 1) - 1)
            = 1 + 2 * (compact3 k (v / 8 / 2 ^ a) + (2 ^ k - 1)) := by omega
        rw [h, hp2, add_mul_mod_mul (by norm_num) hk1]
      rw [hm3, dilate3_succ]
      have e1 : (1 + 2 * ((compact3 k (v / 8 / 2 ^ a) + (2 ^ k - 1)) % 2 ^ k)) % 2 = 1 := by
        omega
      have e2 : (1 + 2 * ((compact3 k (v / 8 / 2 ^ a) + (2 ^ k - 1)) % 2 ^ k)) / 2
          = (compact3 k (v / 8 / 2 ^ a) + (2 ^ k - 1)) % 2 ^ k := by omega
      rw [e1, e2]
      ring
    · -- the lowest axis bit is set: the borrow stops inside the lowest chunk
      have hsum : (v % 8 &&& 2 ^ a) + 8 * (v / 8 &&& (M3 k * 2 ^ a))
            + (8 * 2 ^ (3 * k + r) - 1)
          = ((2 ^ a - 1) + 8 * (v / 8 &&& (M3 k * 2 ^ a))) + 8 * 2 ^ (3 * k + r) := by
        rw [and_low1 _ hd8 _ ha hb]
        omega
      have hself : (v / 8 &&& (M3 k * 2 ^ a)) &&& (M3 k * 2 ^ a)
          = v / 8 &&& (M3 k * 2 ^ a) := by
        rw [Nat.and_assoc, Nat.and_self]
      rw [hsum, Nat.add_mod_right, Nat.mod_eq_of_lt (by omega),
        and_chunk8 _ _ (by omega) ha8, hbor, hself, and_M3 k ha (v / 8), hb]
      have hm4 : (1 + 2 * compact3 k (v / 8 / 2 ^ a) + (2 ^ (k + 1) - 1)) % 2 ^ (k + 1)
          = 2 * compact3 k (v / 8 / 2 ^ a) := by
        have h : 1 + 2 * compact3 k (v / 8 / 2 ^ a) + (2 ^ (k + 1) - 1)
            = 2 * compact3 k (v / 8 / 2 ^ a) + 2 ^ (k + 1) := by omega
        rw [h, Nat.add_mod_right, Nat.mod_eq_of_lt (by omega)]
      rw [hm4, dilate3_succ]
      have e1 : 2 * compact3 k (v / 8 / 2 ^ a) % 2 = 0 := by omega
      have e2 : 2 * compact3 k (v / 8 / 2 ^ a) / 2 = compact3 k (v / 8 / 2 ^ a) := by omega
      rw [e1, e2]
      ring

/-! ### Instantiation at the 64-bit configuration -/

theorem MASK_eq : MASK = M3 21 := by decide

theorem MAX_DEPTH_eq : MAX_DEPTH = 21 := by decide

theorem USIZE_eq : USIZE = 2 ^ (3 * 21 + 1) := by norm_num [USIZE, NUM_BITS_USIZE]

theorem extract_def (v a : Nat) : extract v a = compact3 21 (v / 2 ^ a) := by
  rw [extract, MAX_DEPTH_eq]

theorem mask_n_eq {a : Nat} (ha : a < 3) : mask_n a = M3 21 * 2 ^ a := by
  rw [mask_n, Nat.shiftLeft_eq, Nat.mod_eq_of_lt ha, MASK_eq]

theorem not64_eq (m : Nat) : not64 m = (2 ^ (3 * 21 + 1) - 1) ^^^ m := by
  rw [not64, USIZE_eq, Nat.xor_comm]

theorem mask_lt {a : Nat} (ha : a < 3) : mask_n a < 2 ^ (3 * 21 + 1) := by
  rw [mask_n_eq ha]
  exact lt_of_lt_of_le (M3_mul_lt 21 ha) (Nat.pow_le_pow_right (by norm_num) (by norm_num))

theorem not_mask_and_self {a : Nat} (ha : a < 3) : not64 (mask_n a) &&& mask_n a = 0 := by
  rw [not64_eq]
  exact not_and_self_eq_zero (mask_lt ha)

theorem mask_and_not_self {a : Nat} (ha : a < 3) : mask_n a &&& not64 (mask_n a) = 0 := by
  rw [Nat.and_comm]
  exact not_mask_and_self ha

theorem extract_lt (v a : Nat) : extract v a < 2 ^ 21 := by
  rw [extract_def]
  exact compact3_lt 21 _

theorem dilate3_and_M3 {a : Nat} (k x : Nat) (ha : a < 3) :
    dilate3 k x * 2 ^ a &&& (M3 k * 2 ^ a) = dilate3 k x * 2 ^ a := by
  have h := and_M3 k ha (dilate3 k x * 2 ^ a)
  rw [Nat.mul_div_cancel _ (Nat.two_pow_pos a), compact3_dilate3, dilate3_mod] at h
  exact h

theorem upd_disjoint {x B a : Nat} (ha : a < 3) (hB : B &&& mask_n a = 0) :
    dilate3 21 x * 2 ^ a &&& B = 0 := by
  have hA : dilate3 21 x * 2 ^ a &&& mask_n a = dilate3 21 x * 2 ^ a := by
    rw [mask_n_eq ha]
    exact dilate3_and_M3 21 x ha
  rw [← hA, Nat.and_assoc, Nat.and_comm (mask_n a) B, hB, Nat.and_zero]

theorem upd_and_mask {x B a : Nat} (ha : a < 3) (hB : B &&& mask_n a = 0) :
    (dilate3 21 x * 2 ^ a + B) &&& mask_n a = dilate3 21 x * 2 ^ a := by
  have hA : dilate3 21 x * 2 ^ a &&& mask_n a = dilate3 21 x * 2 ^ a := by
    rw [mask_n_eq ha]
    exact dilate3_and_M3 21 x ha
  rw [add_and_distrib _ (upd_disjoint ha hB), hA, hB, Nat.add_zero]

theorem upd_and_not {x B a : Nat} (ha : a < 3) (hB : B &&& mask_n a = 0) (hBlt : B < USIZE) :
    (dilate3 21 x * 2 ^ a + B) &&& not64 (mask_n a) = B := by
  have hA : dilate3 21 x * 2 ^ a &&& mask_n a = dilate3 21 x * 2 ^ a := by
    rw [mask_n_eq ha]
    exact dilate3_and_M3 21 x ha
  have hA0 : dilate3 21 x * 2 ^ a &&& not64 (mask_n a) = 0 :=
    and_eq_zero_of_subset hA (mask_and_not_self ha)
  have hBB : B &&& not64 (mask_n a) = B := by
    rw [not64_eq]
    rw [USIZE_eq] at hBlt
    exact and_not_eq_self hBlt hB
  rw [add_and_distrib _ (upd_disjoint ha hB), hA0, hBB, Nat.zero_add]

theorem upd_lt {x B a : Nat} (ha : a < 3) (hB : B &&& mask_n a = 0) (hBlt : B < USIZE) :
    dilate3 21 x * 2 ^ a + B < USIZE := by
  rw [← or_eq_add (upd_disjoint ha hB)]
  rw [USIZE_eq] at hBlt ⊢
  exact Nat.or_lt_two_pow
    (lt_of_lt_of_le (dilate3_mul_lt 21 x ha) (Nat.pow_le_pow_right (by norm_num) (by norm_num)))
    hBlt

theorem extract_upd {x B a : Nat} (ha : a < 3) (hB : B &&& mask_n a = 0) :
    extract (dilate3 21 x * 2 ^ a + B) a = x % 2 ^ 21 := by
  have hw := and_M3 21 ha (dilate3 21 x * 2 ^ a + B)
  rw [← mask_n_eq ha, upd_and_mask ha hB, ← extract_def] at hw
  have hxx : dilate3 21 x = dilate3 21 (extract (dilate3 21 x * 2 ^ a + B) a) :=
    Nat.eq_of_mul_eq_mul_right (Nat.two_pow_pos a) hw
  have hcc := congrArg (compact3 21) hxx
  rw [compact3_dilate3, compact3_dilate3] at hcc
  rw [hcc, Nat.mod_eq_of_lt (extract_lt _ a)]

theorem B_and_mask {a : Nat} (v : Nat) (ha : a < 3) :
    (v &&& not64 (mask_n a)) &&& mask_n a = 0 := by
  rw [Nat.and_assoc, not_mask_and_self ha, Nat.and_zero]

theorem B_lt {v a : Nat} (hv : v < USIZE) : v &&& not64 (mask_n a) < USIZE :=
  lt_of_le_of_lt Nat.and_le_left hv

theorem self_decomp {v a : Nat} (hv : v < USIZE) (ha : a < 3) :
    dilate3 21 (extract v a) * 2 ^ a + (v &&& not64 (mask_n a)) = v := by
  have h1 : v &&& mask_n a = dilate3 21 (extract v a) * 2 ^ a := by
    rw [mask_n_eq ha, and_M3 21 ha v, ← extract_def]
  rw [← h1, not64_eq]
  rw [USIZE_eq] at hv
  exact and_split hv

/-- Master equation for `increase_nth_dim`: the carry-confinement trick
computes exactly the canonical axis update with increment `1`. -/
theorem master_inc {v a : Nat} (hv : v < USIZE) (ha : a < 3) :
    increase_nth_dim v a = axisUpd v a 1 := by
  have hv' : v < 2 ^ (3 * 21 + 1) := by rw [USIZE_eq] at hv; exact hv
  have hcore := core_inc (a := a) 1 ha 21 v hv'
  have h1 : ((v ||| not64 (mask_n a)) + 1) % USIZE &&& mask_n a
      = dilate3 21 ((compact3 21 (v / 2 ^ a) + 1) % 2 ^ 21) * 2 ^ a := by
    rw [not64_eq, mask_n_eq ha, USIZE_eq]
    exact hcore
  have hdisj : dilate3 21 ((compact3 21 (v / 2 ^ a) + 1) % 2 ^ 21) * 2 ^ a
      &&& (v &&& not64 (mask_n a)) = 0 :=
    upd_disjoint ha (B_and_mask v ha)
  show ((v ||| not64 (mask_n a)) + 1) % USIZE &&& mask_n a ||| (v &&& not64 (mask_n a)) = _
  rw [h1, or_eq_add hdisj]
  rw [axisUpd, MAX_DEPTH_eq, extract_def]

/-- Master equation for `decrease_nth_dim`: the borrow-confinement trick
computes exactly the canonical axis update with increment `2 ^ 21 - 1`. -/
theorem master_dec {v a : Nat} (hv : v < USIZE) (ha : a < 3) :
    decrease_nth_dim v a = axisUpd v a (2 ^ MAX_DEPTH - 1) := by
  have hv' : v < 2 ^ (3 * 21 + 1) := by rw [USIZE_eq] at hv; exact hv
  have hcore := core_dec (a := a) 1 ha 21 v hv'
  have h1 : ((v &&& mask_n a) + (USIZE - 1)) % USIZE &&& mask_n a
      = dilate3 21 ((compact3 21 (v / 2 ^ a) + (2 ^ 21 - 1)) % 2 ^ 21) * 2 ^ a := by
    rw [mask_n_eq ha, USIZE_eq]
    exact hcore
  have hdisj : dilate3 21 ((compact3 21 (v / 2 ^ a) + (2 ^ 21 - 1)) % 2 ^ 21) * 2 ^ a
      &&& (v &&& not64 (mask_n a)) = 0 :=
    upd_disjoint ha (B_and_mask v ha)
  show ((v &&& mask_n a) + (USIZE - 1)) % USIZE &&& mask_n a ||| (v &&& not64 (mask_n a)) = _
  rw [h1, or_eq_add hdisj]
  rw [axisUpd, MAX_DEPTH_eq, extract_def]

/-! ### Derived properties of the canonical axis update -/

theorem USIZE_eq64 : USIZE = 2 ^ 64 := by norm_num [USIZE, NUM_BITS_USIZE]

theorem mask_pairwise : ∀ a < 3, ∀ b < 3, a ≠ b → mask_n a &&& mask_n b = 0 := by decide

theorem not_mask_and_other : ∀ a < 3, ∀ b < 3, a ≠ b →
    not64 (mask_n a) &&& mask_n b = mask_n b := by decide

theorem mask_and_not_other : ∀ a < 3, ∀ b < 3, a ≠ b →
    mask_n a &&& not64 (mask_n b) = mask_n a := by decide

theorem mask_and_flag : ∀ a < 3, mask_n a &&& 2 ^ 63 = 0 := by decide

theorem not_mask_and_flag : ∀ a < 3, not64 (mask_n a) &&& 2 ^ 63 = 2 ^ 63 := by decide

theorem axisUpd_extract {v a : Nat} (d : Nat) (ha : a < 3) :
    extract (axisUpd v a d) a = (extract v a + d) % 2 ^ MAX_DEPTH := by
  rw [axisUpd, MAX_DEPTH_eq, extract_upd ha (B_and_mask v ha),
    Nat.mod_mod_of_dvd _ dvd_rfl]

theorem axisUpd_and_not {v a : Nat} (d : Nat) (hv : v < USIZE) (ha : a < 3) :
    axisUpd v a d &&& not64 (mask_n a) = v &&& not64 (mask_n a) := by
  rw [axisUpd, MAX_DEPTH_eq]
  exact upd_and_not ha (B_and_mask v ha) (B_lt hv)

theorem axisUpd_lt {v a : Nat} (d : Nat) (hv : v < USIZE) (ha : a < 3) :
    axisUpd v a d < USIZE := by
  rw [axisUpd, MAX_DEPTH_eq]
  exact upd_lt ha (B_and_mask v ha) (B_lt hv)

theorem axisUpd_comp {v a : Nat} (d d' : Nat) (hv : v < USIZE) (ha : a < 3) :
    axisUpd (axisUpd v a d) a d' = axisUpd v a (d + d') := by
  show dilate3 MAX_DEPTH ((extract (axisUpd v a d) a + d') % 2 ^ MAX_DEPTH) * 2 ^ a
      + (axisUpd v a d &&& not64 (mask_n a)) = _
  rw [axisUpd_extract d ha, axisUpd_and_not d hv ha, Nat.mod_add_mod, axisUpd,
    Nat.add_assoc]

theorem axisUpd_mod {v a : Nat} (d : Nat) (hv : v < USIZE) (ha : a < 3)
    (hd : d % 2 ^ MAX_DEPTH = 0) : axisUpd v a d = v := by
  have hx : (extract v a + d) % 2 ^ MAX_DEPTH = extract v a := by
    rw [Nat.add_mod, hd, Nat.add_zero, Nat.mod_mod_of_dvd _ dvd_rfl,
      Nat.mod_eq_of_lt (by rw [MAX_DEPTH_eq]; exact extract_lt v a)]
  rw [axisUpd, hx, MAX_DEPTH_eq]
  exact self_decomp hv ha

theorem axisUpd_and_mask_other {v b : Nat} {a : Nat} (d : Nat) (ha : a < 3) (hb : b < 3)
    (hab : a ≠ b) : axisUpd v a d &&& mask_n b = v &&& mask_n b := by
  rw [axisUpd, MAX_DEPTH_eq, add_and_distrib _ (upd_disjoint ha (B_and_mask v ha))]
  have hA : dilate3 21 ((extract v a + d) % 2 ^ 21) * 2 ^ a &&& mask_n a
      = dilate3 21 ((extract v a + d) % 2 ^ 21) * 2 ^ a := by
    rw [mask_n_eq ha]
    exact dilate3_and_M3 21 _ ha
  rw [and_eq_zero_of_subset hA (mask_pairwise a ha b hb hab), Nat.zero_add,
    Nat.and_assoc, not_mask_and_other a ha b hb hab]

theorem extract_eq_of_and_mask_eq {w1 w2 b : Nat} (hb : b < 3)
    (h : w1 &&& mask_n b = w2 &&& mask_n b) : extract w1 b = extract w2 b := by
  have h1 := and_M3 21 hb w1
  have h2 := and_M3 21 hb w2
  rw [← mask_n_eq hb, ← extract_def] at h1 h2
  rw [h, h2] at h1
  have hxx : dilate3 21 (extract w2 b) = dilate3 21 (extract w1 b) :=
    Nat.eq_of_mul_eq_mul_right (Nat.two_pow_pos b) h1
  have hcc := congrArg (compact3 21) hxx
  rw [compact3_dilate3, compact3_dilate3, Nat.mod_eq_of_lt (extract_lt _ b),
    Nat.mod_eq_of_lt (extract_lt _ b)] at hcc
  exact hcc.symm

theorem axisUpd_extract_other {v b : Nat} {a : Nat} (d : Nat) (ha : a < 3) (hb : b < 3)
    (hab : a ≠ b) : extract (axisUpd v a d) b = extract v b :=
  extract_eq_of_and_mask_eq hb (axisUpd_and_mask_other d ha hb hab)

theorem axisUpd_split_other {v b : Nat} {a : Nat} (d : Nat) (ha : a < 3) (hb : b < 3)
    (hab : a ≠ b) : axisUpd v a d &&& not64 (mask_n b)
      = dilate3 21 ((extract v a + d) % 2 ^ 21) * 2 ^ a
        + (v &&& (not64 (mask_n a) &&& not64 (mask_n b))) := by
  rw [axisUpd, MAX_DEPTH_eq, add_and_distrib _ (upd_disjoint ha (B_and_mask v ha))]
  have hA : dilate3 21 ((extract v a + d) % 2 ^ 21) * 2 ^ a &&& mask_n a
      = dilate3 21 ((extract v a + d) % 2 ^ 21) * 2 ^ a := by
    rw [mask_n_eq ha]
    exact dilate3_and_M3 21 _ ha
  rw [and_eq_self_of_subset hA (mask_and_not_other a ha b hb hab), Nat.and_assoc]

theorem axisUpd_comm {v : Nat} {a b : Nat} (d d' : Nat) (ha : a < 3)
    (hb : b < 3) (hab : a ≠ b) :
    axisUpd (axisUpd v a d) b d' = axisUpd (axisUpd v b d') a d := by
  have key : ∀ a' b' da db, a' < 3 → b' < 3 → a' ≠ b' →
      axisUpd (axisUpd v a' da) b' db
        = dilate3 21 ((extract v b' + db) % 2 ^ 21) * 2 ^ b'
          + (dilate3 21 ((extract v a' + da) % 2 ^ 21) * 2 ^ a'
            + (v &&& (not64 (mask_n a') &&& not64 (mask_n b')))) := by
    intro a' b' da db ha' hb' hab'
    show dilate3 MAX_DEPTH ((extract (axisUpd v a' da) b' + db) % 2 ^ MAX_DEPTH) * 2 ^ b'
        + (axisUpd v a' da &&& not64 (mask_n b')) = _
    rw [MAX_DEPTH_eq, axisUpd_extract_other da ha' hb' hab',
      axisUpd_split_other da ha' hb' hab']
  rw [key a b d d' ha hb hab, key b a d' d hb ha (Ne.symm hab),
    Nat.and_comm (not64 (mask_n b)) (not64 (mask_n a))]
  ring

theorem axisUpd_flag {v a : Nat} (d : Nat) (ha : a < 3) :
    axisUpd v a d &&& 2 ^ 63 = v &&& 2 ^ 63 := by
  rw [axisUpd, MAX_DEPTH_eq, add_and_distrib _ (upd_disjoint ha (B_and_mask v ha))]
  have hA : dilate3 21 ((extract v a + d) % 2 ^ 21) * 2 ^ a &&& mask_n a
      = dilate3 21 ((extract v a + d) % 2 ^ 21) * 2 ^ a := by
    rw [mask_n_eq ha]
    exact dilate3_and_M3 21 _ ha
  rw [and_eq_zero_of_subset hA (mask_and_flag a ha), Nat.zero_add, Nat.and_assoc,
    not_mask_and_flag a ha]

theorem testBit_eq_of_and_two_pow {w1 w2 i : Nat} (h : w1 &&& 2 ^ i = w2 &&& 2 ^ i) :
    w1.testBit i = w2.testBit i := by
  have hc := congrArg (fun t => t.testBit i) h
  simpa [Nat.testBit_and, Nat.testBit_two_pow_self] using hc

theorem testBit_eq_outside {w1 w2 m i : Nat} (h : w1 &&& not64 m = w2 &&& not64 m)
    (hw1 : w1 < USIZE) (hw2 : w2 < USIZE) (hi : m.testBit i = false) :
    w1.testBit i = w2.testBit i := by
  rcases Nat.lt_or_ge i 64 with h64 | h64
  · have hb := congrArg (fun t => t.testBit i) h
    simp only [Nat.testBit_and, not64, Nat.testBit_xor] at hb
    have hone : (USIZE - 1).testBit i = true := by
      rw [USIZE_eq64, Nat.testBit_two_pow_sub_one]
      simp [h64]
    rw [hi, hone] at hb
    simpa using hb
  · have hp : (2 : Nat) ^ 64 ≤ 2 ^ i := Nat.pow_le_pow_right (by norm_num) h64
    rw [USIZE_eq64] at hw1 hw2
    rw [Nat.testBit_lt_two_pow (lt_of_lt_of_le hw1 hp),
      Nat.testBit_lt_two_pow (lt_of_lt_of_le hw2 hp)]

theorem roundtrip_all {v a : Nat} (hv : v < USIZE) (ha : a < 3) :
    decrease_nth_dim (increase_nth_dim v a) a = v ∧
    increase_nth_dim (decrease_nth_dim v a) a = v := by
  have hN : (0 : Nat) < 2 ^ MAX_DEPTH := Nat.two_pow_pos _
  constructor
  · rw [master_inc hv ha, master_dec (axisUpd_lt 1 hv ha) ha, axisUpd_comp _ _ hv ha]
    apply axisUpd_mod _ hv ha
    have h : 1 + (2 ^ MAX_DEPTH - 1) = 2 ^ MAX_DEPTH := by omega
    rw [h, Nat.mod_self]
  · rw [master_dec hv ha, master_inc (axisUpd_lt _ hv ha) ha, axisUpd_comp _ _ hv ha]
    apply axisUpd_mod _ hv ha
    have h : (2 ^ MAX_DEPTH - 1) + 1 = 2 ^ MAX_DEPTH := by omega
    rw [h, Nat.mod_self]

/-! ### Flag operations -/

theorem one_shl_63 : (1 <<< (NUM_BITS_USIZE - 1) : Nat) = 2 ^ 63 := by decide

theorem set_flag_testBit {v i : Nat} (hne : i ≠ 63) : (set_flag v).testBit i = v.testBit i := by
  show (v ||| 1 <<< (NUM_BITS_USIZE - 1)).testBit i = _
  rw [one_shl_63, Nat.testBit_or, Nat.testBit_two_pow]
  simp [hne.symm]

theorem set_flag_msb (v : Nat) : (set_flag v).testBit 63 = true := by
  show (v ||| 1 <<< (NUM_BITS_USIZE - 1)).testBit 63 = true
  rw [one_shl_63, Nat.testBit_or, Nat.testBit_two_pow_self]
  simp

theorem unset_flag_testBit {v i : Nat} (hv : v < USIZE) (hne : i ≠ 63) :
    (unset_flag v).testBit i = v.testBit i := by
  show (v &&& not64 (1 <<< (NUM_BITS_USIZE - 1))).testBit i = _
  rw [one_shl_63]
  rcases Nat.lt_or_ge i 64 with h64 | h64
  · rw [Nat.testBit_and, not64, Nat.testBit_xor, Nat.testBit_two_pow]
    have hone : (USIZE - 1).testBit i = true := by
      rw [USIZE_eq64, Nat.testBit_two_pow_sub_one]
      simp [h64]
    rw [hone]
    simp [hne.symm]
  · have hp : (2 : Nat) ^ 64 ≤ 2 ^ i := Nat.pow_le_pow_right (by norm_num) h64
    have hv' : v < 2 ^ i := lt_of_lt_of_le (by rw [USIZE_eq64] at hv; exact hv) hp
    rw [Nat.testBit_lt_two_pow hv',
      Nat.testBit_lt_two_pow (lt_of_le_of_lt Nat.and_le_left hv')]

theorem unset_flag_msb (v : Nat) : (unset_flag v).testBit 63 = false := by
  show (v &&& not64 (1 <<< (NUM_BITS_USIZE - 1))).testBit 63 = false
  rw [one_shl_63, Nat.testBit_and, not64, Nat.testBit_xor, Nat.testBit_two_pow_self]
  have hone : (USIZE - 1).testBit 63 = true := by
    rw [USIZE_eq64, Nat.testBit_two_pow_sub_one]
    decide
  rw [hone]
  simp

theorem is_flag_set_eq {v : Nat} (hv : v < USIZE) : is_flag_set v = v.testBit 63 := by
  show (v >>> (NUM_BITS_USIZE - 1) == 1) = v.testBit 63
  have h63 : NUM_BITS_USIZE - 1 = 63 := by norm_num [NUM_BITS_USIZE]
  rw [h63, Nat.shiftRight_eq_div_pow, Nat.testBit_to_div_mod]
  have hlt : v / 2 ^ 63 < 2 := by
    rw [Nat.div_lt_iff_lt_mul (Nat.two_pow_pos 63)]
    rw [USIZE_eq64] at hv
    calc v < 2 ^ 64 := hv
      _ = 2 * 2 ^ 63 := by norm_num
  rcases (by omega : v / 2 ^ 63 = 0 ∨ v / 2 ^ 63 = 1) with h | h <;> rw [h] <;> decide

/-! ### Iterating `increase_x; increase_y; increase_z` from zero -/

theorem dil_in_mask {x a : Nat} (ha : a < 3) :
    dilate3 21 x * 2 ^ a &&& mask_n a = dilate3 21 x * 2 ^ a := by
  rw [mask_n_eq ha]
  exact dilate3_and_M3 21 x ha

theorem dil_mask_other {x a b : Nat} (ha : a < 3) (hb : b < 3) (hab : a ≠ b) :
    dilate3 21 x * 2 ^ a &&& mask_n b = 0 :=
  and_eq_zero_of_subset (dil_in_mask ha) (mask_pairwise a ha b hb hab)

theorem dil_dil_disjoint {x y a b : Nat} (ha : a < 3) (hb : b < 3) (hab : a ≠ b) :
    dilate3 21 x * 2 ^ a &&& (dilate3 21 y * 2 ^ b) = 0 :=
  and_eq_zero_of_subsets (dil_in_mask ha) (dil_in_mask hb) (mask_pairwise a ha b hb hab)

theorem dil_lt {x a : Nat} (ha : a < 3) : dilate3 21 x * 2 ^ a < USIZE := by
  rw [USIZE_eq]
  exact lt_of_lt_of_le (dilate3_mul_lt 21 x ha) (Nat.pow_le_pow_right (by norm_num) (by norm_num))

theorem dil_sum_lt {x y a b : Nat} (ha : a < 3) (hb : b < 3) (hab : a ≠ b) :
    dilate3 21 x * 2 ^ a + dilate3 21 y * 2 ^ b < USIZE := by
  rw [← or_eq_add (dil_dil_disjoint ha hb hab), USIZE_eq64]
  have h1 : dilate3 21 x * 2 ^ a < USIZE := dil_lt ha
  have h2 : dilate3 21 y * 2 ^ b < USIZE := dil_lt hb
  rw [USIZE_eq64] at h1 h2
  exact Nat.or_lt_two_pow h1 h2

theorem step_axis {x B a : Nat} (ha : a < 3) (hB : B &&& mask_n a = 0) (hBlt : B < USIZE)
    (hx : x < 2 ^ 21) :
    increase_nth_dim (dilate3 21 x * 2 ^ a + B) a
      = dilate3 21 ((x + 1) % 2 ^ 21) * 2 ^ a + B := by
  have hv : dilate3 21 x * 2 ^ a + B < USIZE := upd_lt ha hB hBlt
  rw [master_inc hv ha, axisUpd, MAX_DEPTH_eq, extract_upd ha hB,
    upd_and_not ha hB hBlt, Nat.mod_eq_of_lt hx]

theorem round_step (x : Nat) (hx : x < 2 ^ 21) :
    increase_xyz
        (dilate3 21 x * 2 ^ 0 + (dilate3 21 x * 2 ^ 1 + dilate3 21 x * 2 ^ 2))
      = dilate3 21 ((x + 1) % 2 ^ 21) * 2 ^ 0
        + (dilate3 21 ((x + 1) % 2 ^ 21) * 2 ^ 1 + dilate3 21 ((x + 1) % 2 ^ 21) * 2 ^ 2) := by
  have hy : (x + 1) % 2 ^ 21 < 2 ^ 21 := Nat.mod_lt _ (by norm_num)
  have h01 : (0 : Nat) ≠ 1 := by norm_num
  have h02 : (0 : Nat) ≠ 2 := by norm_num
  have h12 : (1 : Nat) ≠ 2 := by norm_num
  have l3 : (0 : Nat) < 3 := by norm_num
  have l3' : (1 : Nat) < 3 := by norm_num
  have l3'' : (2 : Nat) < 3 := by norm_num
  have hB0 : (dilate3 21 x * 2 ^ 1 + dilate3 21 x * 2 ^ 2) &&& mask_n 0 = 0 := by
    rw [add_and_distrib _ (dil_dil_disjoint l3' l3'' h12),
      dil_mask_other l3' l3 h01.symm, dil_mask_other l3'' l3 h02.symm]
  have e1 : increase_x (dilate3 21 x * 2 ^ 0 + (dilate3 21 x * 2 ^ 1 + dilate3 21 x * 2 ^ 2))
      = dilate3 21 ((x + 1) % 2 ^ 21) * 2 ^ 0
        + (dilate3 21 x * 2 ^ 1 + dilate3 21 x * 2 ^ 2) := by
    show increase_nth_dim
        (dilate3 21 x * 2 ^ 0 + (dilate3 21 x * 2 ^ 1 + dilate3 21 x * 2 ^ 2)) 0 = _
    rw [step_axis l3 hB0 (dil_sum_lt l3' l3'' h12) hx]
  have hB1 : (dilate3 21 ((x + 1) % 2 ^ 21) * 2 ^ 0 + dilate3 21 x * 2 ^ 2) &&& mask_n 1
      = 0 := by
    rw [add_and_distrib _ (dil_dil_disjoint l3 l3'' h02),
      dil_mask_other l3 l3' h01, dil_mask_other l3'' l3' h12.symm]
  have e2 : increase_y (dilate3 21 x * 2 ^ 1
        + (dilate3 21 ((x + 1) % 2 ^ 21) * 2 ^ 0 + dilate3 21 x * 2 ^ 2))
      = dilate3 21 ((x + 1) % 2 ^ 21) * 2 ^ 1
        + (dilate3 21 ((x + 1) % 2 ^ 21) * 2 ^ 0 + dilate3 21 x * 2 ^ 2) := by
    show increase_nth_dim (dilate3 21 x * 2 ^ 1
        + (dilate3 21 ((x + 1) % 2 ^ 21) * 2 ^ 0 + dilate3 21 x * 2 ^ 2)) 1 = _
    rw [step_axis l3' hB1 (dil_sum_lt l3 l3'' h02) hx]
  have hB2 : (dilate3 21 ((x + 1) % 2 ^ 21) * 2 ^ 0
        + dilate3 21 ((x + 1) % 2 ^ 21) * 2 ^ 1) &&& mask_n 2 = 0 := by
    rw [add_and_distrib _ (dil_dil_disjoint l3 l3' h01),
      dil_mask_other l3 l3'' h02, dil_mask_other l3' l3'' h12]
  have e3 : increase_z (dilate3 21 x * 2 ^ 2
        + (dilate3 21 ((x + 1) % 2 ^ 21) * 2 ^ 0 + dilate3 21 ((x + 1) % 2 ^ 21) * 2 ^ 1))
      = dilate3 21 ((x + 1) % 2 ^ 21) * 2 ^ 2
        + (dilate3 21 ((x + 1) % 2 ^ 21) * 2 ^ 0 + dilate3 21 ((x + 1) % 2 ^ 21) * 2 ^ 1) := by
    show increase_nth_dim (dilate3 21 x * 2 ^ 2
        + (dilate3 21 ((x + 1) % 2 ^ 21) * 2 ^ 0 + dilate3 21 ((x + 1) % 2 ^ 21) * 2 ^ 1)) 2
      = _
    rw [step_axis l3'' hB2 (dil_sum_lt l3 l3' h01) hx]
  show increase_z (increase_y (increase_x _)) = _
  rw [e1, show dilate3 21 ((x + 1) % 2 ^ 21) * 2 ^ 0
        + (dilate3 21 x * 2 ^ 1 + dilate3 21 x * 2 ^ 2)
      = dilate3 21 x * 2 ^ 1
        + (dilate3 21 ((x + 1) % 2 ^ 21) * 2 ^ 0 + dilate3 21 x * 2 ^ 2) from by ring,
    e2, show dilate3 21 ((x + 1) % 2 ^ 21) * 2 ^ 1
        + (dilate3 21 ((x + 1) % 2 ^ 21) * 2 ^ 0 + dilate3 21 x * 2 ^ 2)
      = dilate3 21 x * 2 ^ 2
        + (dilate3 21 ((x + 1) % 2 ^ 21) * 2 ^ 0 + dilate3 21 ((x + 1) % 2 ^ 21) * 2 ^ 1)
      from by ring,
    e3]
  ring

theorem increase_xyz_iter (n : Nat) :
    increase_xyz^[n] 0
      = dilate3 21 (n % 2 ^ 21) * 2 ^ 0
        + (dilate3 21 (n % 2 ^ 21) * 2 ^ 1 + dilate3 21 (n % 2 ^ 21) * 2 ^ 2) := by
  induction n with
  | zero =>
    rw [Function.iterate_zero_apply]
    decide
  | succ n ih =>
    rw [Function.iterate_succ_apply', ih,
      round_step (n % 2 ^ 21) (Nat.mod_lt _ (by norm_num)), Nat.mod_add_mod]

/-! ### Claim theorems -/

/-- C1 counterexample: at `v = MASK` (x coordinate all ones) the x coordinate
of `increase_nth_dim v 0` is `0`, not `extract v 0 + 1 = 2 ^ 21`: the claim
as stated (coordinate plus one, with no modulus) fails at the boundary. -/
theorem c1_counterexample :
    ¬ (extract (increase_nth_dim MASK 0) 0 = extract MASK 0 + 1) := by decide

/-- C1 (amended): for every word `v` and axis `a < 3`, `increase_nth_dim v a`
has axis-`a` dilated coordinate `extract v a + 1` modulo `2 ^ MAX_DEPTH`, and
`decrease_nth_dim v a` has coordinate `extract v a - 1` modulo `2 ^ MAX_DEPTH`
(written `+ (2 ^ MAX_DEPTH - 1)`), while every bit outside `mask_n a` — the
other two axes' bits and the flag bit — is bit-for-bit unchanged. -/
theorem c1_dilated_increment : ∀ v < USIZE, ∀ a < 3,
    extract (increase_nth_dim v a) a = (extract v a + 1) % 2 ^ MAX_DEPTH ∧
    extract (decrease_nth_dim v a) a
      = (extract v a + (2 ^ MAX_DEPTH - 1)) % 2 ^ MAX_DEPTH ∧
    ∀ i, (mask_n a).testBit i = false →
      (increase_nth_dim v a).testBit i = v.testBit i ∧
      (decrease_nth_dim v a).testBit i = v.testBit i := by
  intro v hv a ha
  refine ⟨?_, ?_, ?_⟩
  · rw [master_inc hv ha, axisUpd_extract 1 ha]
  · rw [master_dec hv ha, axisUpd_extract _ ha]
  · intro i hi
    constructor
    · exact testBit_eq_outside (by rw [master_inc hv ha]; exact axisUpd_and_not 1 hv ha)
        (by rw [master_inc hv ha]; exact axisUpd_lt 1 hv ha) hv hi
    · exact testBit_eq_outside (by rw [master_dec hv ha]; exact axisUpd_and_not _ hv ha)
        (by rw [master_dec hv ha]; exact axisUpd_lt _ hv ha) hv hi

/-- C1 witness: the amended theorem applied at `v = 2`, axis `y`. -/
theorem c1_witness :
    extract (increase_nth_dim 2 1) 1 = (extract 2 1 + 1) % 2 ^ MAX_DEPTH :=
  (c1_dilated_increment 2 (by decide) 1 (by decide)).1

/-- C2: for every word `v` whose axis-`a` coordinate is strictly inside the
axis range (neither all-zero nor all-one) and every axis `a < 3`,
`increase` then `decrease` (and vice versa) on axis `a` restores `v`. -/
theorem c2_roundtrip_interior : ∀ v < USIZE, ∀ a < 3,
    extract v a ≠ 0 → extract v a ≠ 2 ^ MAX_DEPTH - 1 →
    decrease_nth_dim (increase_nth_dim v a) a = v ∧
    increase_nth_dim (decrease_nth_dim v a) a = v := by
  intro v hv a ha _ _
  exact roundtrip_all hv ha

/-- C2 witness: the round trip at `v = 2` (y coordinate `1`), axis `y`. -/
theorem c2_witness :
    decrease_nth_dim (increase_nth_dim 2 1) 1 = 2 ∧
    increase_nth_dim (decrease_nth_dim 2 1) 1 = 2 :=
  c2_roundtrip_interior 2 (by decide) 1 (by decide) (by decide) (by decide)

/-- C3 counterexample: in the 32-bit configuration the union of the three
axis masks is not all non-flag bits — bit 30 (the unused spare bit) is in no
mask, so the union differs from `2 ^ 31 - 1`. -/
theorem c3_counterexample :
    ¬ (mask32_n 0 ||| mask32_n 1 ||| mask32_n 2 = 2 ^ (NUM_BITS_USIZE32 - 1) - 1) := by
  decide

/-- C3 (amended): in both configurations the three axis masks are pairwise
disjoint; in the 64-bit configuration their union is exactly all non-flag
bits (`2 ^ 63 - 1`), while in the 32-bit configuration it is all bits below
the unused spare bit (`2 ^ 30 - 1`), one bit short of all non-flag bits. -/
theorem c3_mask_partition :
    (mask_n 0 &&& mask_n 1 = 0 ∧ mask_n 0 &&& mask_n 2 = 0 ∧ mask_n 1 &&& mask_n 2 = 0 ∧
      mask_n 0 ||| mask_n 1 ||| mask_n 2 = 2 ^ (NUM_BITS_USIZE - 1) - 1) ∧
    (mask32_n 0 &&& mask32_n 1 = 0 ∧ mask32_n 0 &&& mask32_n 2 = 0 ∧
      mask32_n 1 &&& mask32_n 2 = 0 ∧
      mask32_n 0 ||| mask32_n 1 ||| mask32_n 2 = 2 ^ (NUM_BITS_USIZE32 - 2) - 1) := by
  decide

/-- C4: when the axis-`a` bits of `v` are exhausted, the operations do not
signal an error but wrap modulo the axis capacity `2 ^ MAX_DEPTH`: an
all-ones coordinate increments to all-zeros and an all-zeros coordinate
decrements to all-ones, with all bits outside `mask_n a` unchanged. -/
theorem c4_wraparound : ∀ v < USIZE, ∀ a < 3,
    (extract v a = 2 ^ MAX_DEPTH - 1 →
      extract (increase_nth_dim v a) a = 0 ∧
      increase_nth_dim v a &&& not64 (mask_n a) = v &&& not64 (mask_n a)) ∧
    (extract v a = 0 →
      extract (decrease_nth_dim v a) a = 2 ^ MAX_DEPTH - 1 ∧
      decrease_nth_dim v a &&& not64 (mask_n a) = v &&& not64 (mask_n a)) := by
  intro v hv a ha
  have hN : (0 : Nat) < 2 ^ MAX_DEPTH := Nat.two_pow_pos _
  constructor
  · intro hx
    refine ⟨?_, by rw [master_inc hv ha]; exact axisUpd_and_not 1 hv ha⟩
    rw [master_inc hv ha, axisUpd_extract 1 ha, hx]
    have h1 : 2 ^ MAX_DEPTH - 1 + 1 = 2 ^ MAX_DEPTH := by omega
    rw [h1, Nat.mod_self]
  · intro hx
    refine ⟨?_, by rw [master_dec hv ha]; exact axisUpd_and_not _ hv ha⟩
    rw [master_dec hv ha, axisUpd_extract _ ha, hx, Nat.zero_add,
      Nat.mod_eq_of_lt (by omega)]

/-- C4 witness: incrementing `MASK` (x coordinate all ones) wraps x to zero
and leaves everything outside the x mask unchanged. -/
theorem c4_witness :
    extract (increase_nth_dim MASK 0) 0 = 0 ∧
    increase_nth_dim MASK 0 &&& not64 (mask_n 0) = MASK &&& not64 (mask_n 0) :=
  (c4_wraparound MASK (by decide) 0 (by decide)).1 (by decide)

/-- C5: `set_flag` and `unset_flag` modify only the most-significant bit,
`is_flag_set` equals exactly the most-significant bit, and the
increase/decrease operations never change the most-significant bit — so the
flag is independent of any sequence of coordinate operations. -/
theorem c5_flag_independence : ∀ v < USIZE, ∀ a < 3,
    (∀ i, i ≠ NUM_BITS_USIZE - 1 →
      (set_flag v).testBit i = v.testBit i ∧ (unset_flag v).testBit i = v.testBit i) ∧
    (set_flag v).testBit (NUM_BITS_USIZE - 1) = true ∧
    (unset_flag v).testBit (NUM_BITS_USIZE - 1) = false ∧
    is_flag_set v = v.testBit (NUM_BITS_USIZE - 1) ∧
    (increase_nth_dim v a).testBit (NUM_BITS_USIZE - 1) = v.testBit (NUM_BITS_USIZE - 1) ∧
    (decrease_nth_dim v a).testBit (NUM_BITS_USIZE - 1)
      = v.testBit (NUM_BITS_USIZE - 1) := by
  intro v hv a ha
  have h63 : NUM_BITS_USIZE - 1 = 63 := by norm_num [NUM_BITS_USIZE]
  rw [h63]
  refine ⟨?_, set_flag_msb v, unset_flag_msb v, is_flag_set_eq hv, ?_, ?_⟩
  · intro i hi
    exact ⟨set_flag_testBit hi, unset_flag_testBit hv hi⟩
  · exact testBit_eq_of_and_two_pow (by rw [master_inc hv ha]; exact axisUpd_flag 1 ha)
  · exact testBit_eq_of_and_two_pow (by rw [master_dec hv ha]; exact axisUpd_flag _ ha)

/-- C5 witness: the flag properties at `v = 0`, axis `x`, bit `0`. -/
theorem c5_witness :
    is_flag_set 0 = (0 : Nat).testBit (NUM_BITS_USIZE - 1) :=
  (c5_flag_independence 0 (by decide) 0 (by decide)).2.2.2.1

/-- C6: the literal scenario of the spec and the source test `test_inc`:
starting from `0b000001`, three `increase_y` steps give `0b000011`,
`0b010001`, `0b010011`, and then `increase_y` followed by `increase_z`
gives `0b010000101` (decimal `1, 3, 17, 19, 133`). -/
theorem c6_literal_increase :
    increase_y 1 = 3 ∧ increase_y 3 = 17 ∧ increase_y 17 = 19 ∧
    increase_z (increase_y 19) = 133 := by decide

/-- C7: starting from zero and applying `increase_x(); increase_y();
increase_z()` exactly `2 ^ MAX_DEPTH - 1` times yields the word whose
non-flag bits are all 1 (`2 ^ 63 - 1`), bit by bit. -/
theorem c7_saturation :
    increase_xyz^[2 ^ MAX_DEPTH - 1] 0 = 2 ^ (NUM_BITS_USIZE - 1) - 1 ∧
    ∀ i, i < NUM_BITS_USIZE - 1 →
      (increase_xyz^[2 ^ MAX_DEPTH - 1] 0).testBit i = true := by
  have h := increase_xyz_iter (2 ^ MAX_DEPTH - 1)
  have hm : (2 ^ MAX_DEPTH - 1 : Nat) % 2 ^ 21 = 2 ^ 21 - 1 := by decide
  rw [hm] at h
  have hval : dilate3 21 (2 ^ 21 - 1) * 2 ^ 0
      + (dilate3 21 (2 ^ 21 - 1) * 2 ^ 1 + dilate3 21 (2 ^ 21 - 1) * 2 ^ 2)
      = 2 ^ (NUM_BITS_USIZE - 1) - 1 := by decide
  rw [h, hval]
  refine ⟨rfl, ?_⟩
  intro i hi
  have h63 : NUM_BITS_USIZE - 1 = 63 := by norm_num [NUM_BITS_USIZE]
  rw [h63] at hi ⊢
  rw [Nat.testBit_two_pow_sub_one]
  simpa using hi

/-- C7 witness: the saturation theorem read off at bit `0`. -/
theorem c7_witness : (increase_xyz^[2 ^ MAX_DEPTH - 1] 0).testBit 0 = true :=
  c7_saturation.2 0 (by decide)

/-- C8: `MAX_DEPTH` equals `floor((bit_width - 1) / 3)` in both
configurations: `21` for the 64-bit word and `10` for the 32-bit word. -/
theorem c8_max_depth :
    MAX_DEPTH = (NUM_BITS_USIZE - 1) / 3 ∧ MAX_DEPTH = 21 ∧
    MAX_DEPTH32 = (NUM_BITS_USIZE32 - 1) / 3 ∧ MAX_DEPTH32 = 10 := by decide

/-- C9: operations on distinct axes commute: for all `v`, axes `a ≠ b`, and
`op`, `op'` each `increase` or `decrease`, `v.op(a).op'(b) = v.op'(b).op(a)`. -/
theorem c9_cross_axis_commute : ∀ v < USIZE, ∀ a < 3, ∀ b < 3, a ≠ b →
    increase_nth_dim (increase_nth_dim v a) b
      = increase_nth_dim (increase_nth_dim v b) a ∧
    decrease_nth_dim (increase_nth_dim v a) b
      = increase_nth_dim (decrease_nth_dim v b) a ∧
    increase_nth_dim (decrease_nth_dim v a) b
      = decrease_nth_dim (increase_nth_dim v b) a ∧
    decrease_nth_dim (decrease_nth_dim v a) b
      = decrease_nth_dim (decrease_nth_dim v b) a := by
  intro v hv a ha b hb hab
  refine ⟨?_, ?_, ?_, ?_⟩
  · rw [master_inc hv ha, master_inc (axisUpd_lt 1 hv ha) hb,
      master_inc hv hb, master_inc (axisUpd_lt 1 hv hb) ha]
    exact axisUpd_comm 1 1 ha hb hab
  · rw [master_inc hv ha, master_dec (axisUpd_lt 1 hv ha) hb,
      master_dec hv hb, master_inc (axisUpd_lt _ hv hb) ha]
    exact axisUpd_comm 1 _ ha hb hab
  · rw [master_dec hv ha, master_inc (axisUpd_lt _ hv ha) hb,
      master_inc hv hb, master_dec (axisUpd_lt 1 hv hb) ha]
    exact axisUpd_comm _ 1 ha hb hab
  · rw [master_dec hv ha, master_dec (axisUpd_lt _ hv ha) hb,
      master_dec hv hb, master_dec (axisUpd_lt _ hv hb) ha]
    exact axisUpd_comm _ _ ha hb hab

/-- C9 witness: commutation at `v = 1`, axes `x` and `y`. -/
theorem c9_witness :
    increase_nth_dim (increase_nth_dim 1 0) 1 = increase_nth_dim (increase_nth_dim 1 1) 0 :=
  (c9_cross_axis_commute 1 (by decide) 0 (by decide) 1 (by decide) (by decide)).1

/-- C10: under the wraparound semantics the round trip holds for every word
with no boundary restriction: for all `v` and axes `a`,
`decrease (increase v a) a = v` and `increase (decrease v a) a = v`. -/
theorem c10_roundtrip_all : ∀ v < USIZE, ∀ a < 3,
    decrease_nth_dim (increase_nth_dim v a) a = v ∧
    increase_nth_dim (decrease_nth_dim v a) a = v := by
  intro v hv a ha
  exact roundtrip_all hv ha

/-- C10 witness: the round trip at the boundary value `v = 0`, axis `x`. -/
theorem c10_witness :
    decrease_nth_dim (increase_nth_dim 0 0) 0 = 0 ∧
    increase_nth_dim (decrease_nth_dim 0 0) 0 = 0 :=
  c10_roundtrip_all 0 (by decide) 0 (by decide)

end Morton
